import Mathlib

/-
Verification of the nlptk corpus library: a shallow embedding of the
token data model (src/token.rs) and the corpus construction, n-gram and
vocabulary-filter functions (src/corpus.rs), together with proofs of the
specified properties. Byte buffers are modelled as lists of naturals,
borrowed slices as the lists they denote, and the iterator pipelines as
the corresponding list functions.
-/

namespace Nlptk

/-- A Word is a slice of characters belonging to a corpus; the language
parameter L is a phantom marker carrying no data (src/token.rs, struct
Word). The chars field holds the bytes of the slice. -/
structure Word (L : Type) where
  chars : List Nat
deriving DecidableEq, Repr

/-- The Token type of src/token.rs: a Word slice actually present in a
document, the synthetic Null boundary marker, or the synthetic Unknown
out-of-vocabulary marker. Variants appear in the declaration order of the
Rust enum (Word, then Null, then Unknown), which fixes the derived
ordering. -/
inductive Token (L : Type) where
  | Word (w : Word L)
  | Null
  | Unknown
deriving DecidableEq, Repr

/-- The variant of a token, forgetting any payload. -/
inductive TokenVariant where
  | word
  | null
  | unknown
deriving DecidableEq, Repr

/-- Variant projection for tokens. -/
def Token.variant {L : Type} : Token L → TokenVariant
  | .Word _ => .word
  | .Null => .null
  | .Unknown => .unknown

/-- Byte content of a token: the chars of a Word, nothing for the
synthetic markers. -/
def Token.content {L : Type} : Token L → Option (List Nat)
  | .Word w => some w.chars
  | .Null => none
  | .Unknown => none

/-- Token.loan of src/token.rs: re-labels a token as belonging to another
language tag. The Rust implementation is a transmute that is a no-op on
the runtime representation; the embedding re-builds the same variant with
the same bytes under the new tag. -/
def Token.loan {L M : Type} : Token L → Token M
  | .Word w => .Word ⟨w.chars⟩
  | .Null => .Null
  | .Unknown => .Unknown

/-- Strict lexicographic order on byte slices, as derived by Rust for a
slice of u8: the first unequal byte decides, and a strict prefix is
smaller. -/
def bytesLt : List Nat → List Nat → Bool
  | [], [] => false
  | [], _ :: _ => true
  | _ :: _, [] => false
  | a :: l1, b :: l2 => a < b || (a == b && bytesLt l1 l2)

/-- The strict order on tokens derived by Rust for the Token enum:
variants compare in declaration order (Word, Null, Unknown), and two
Word tokens compare by the lexicographic order of their byte content
(the phantom language field compares equal always). -/
def Token.lt {L : Type} : Token L → Token L → Bool
  | .Word a, .Word b => bytesLt a.chars b.chars
  | .Word _, .Null => true
  | .Word _, .Unknown => true
  | .Null, .Word _ => false
  | .Null, .Null => false
  | .Null, .Unknown => true
  | .Unknown, _ => false

/-- unigrams of src/corpus.rs: the identity on a token sequence. -/
def unigrams {L : Type} (tokens : List (Token L)) : List (Token L) :=
  tokens

/-- bigrams of src/corpus.rs: a sliding window of size two over the
cloned token sequence (tuple_windows), yielding each adjacent pair. -/
def bigrams {L : Type} : List (Token L) → List (Token L × Token L)
  | a :: b :: rest => (a, b) :: bigrams (b :: rest)
  | _ => []

/-- padded of src/corpus.rs: one Null token, then every sentence in order
followed by a Null token (once(Null) chained with the flattened map). -/
def padded {L : Type} (lines : List (List (Token L))) : List (Token L) :=
  Token.Null :: (lines.map (fun s => s ++ [Token.Null])).flatten

/-- unk of src/corpus.rs: every token of the input that is not a member
of the vocabulary is replaced by Unknown; members pass through. The
HashSet vocabulary is modelled by a list queried by structural equality,
matching the derived Eq used by the Rust set. -/
def unk {L : Type} [DecidableEq (Token L)] (tokens : List (Token L))
    (vocabulary : List (Token L)) : List (Token L) :=
  tokens.map (fun word => if word ∈ vocabulary then word else Token.Unknown)

/-- Splitting a byte buffer on a separator byte, with the semantics of
Rust slice split: n separators yield n + 1 segments; the empty buffer
yields one empty segment; adjacent, leading and trailing separators
yield empty segments. -/
def splitByte (sep : Nat) : List Nat → List (List Nat)
  | [] => [[]]
  | c :: cs =>
    match splitByte sep cs with
    | [] => [[]]
    | s :: ss => if c = sep then [] :: s :: ss else (c :: s) :: ss

/-- The words of one sentence segment: split on the space byte and drop
the empty substrings (src/corpus.rs, lines 104-105). -/
def segmentWords (seg : List Nat) : List (List Nat) :=
  (splitByte 32 seg).filter (fun w => !w.isEmpty)

/-- The Document type of src/corpus.rs: the owned byte buffer, the word
index, and the sentence spans. The Rust struct stores the lines as
slices into the token vector; the embedding stores each line as the
half-open index range (s, e) the loop computes, from which the slice is
reconstructed (linesView below), mirroring tokens[s..e]. -/
structure Document (L : Type) where
  bytes : List Nat
  tokens : List (Token L)
  lines : List (Nat × Nat)
deriving Repr

/-- The construction loop of From::from for Document (src/corpus.rs,
lines 102-109): for each sentence segment, record the token count before
(s), extend the token vector with the segment's words, record the count
after (e), and push the span (s, e). -/
def buildDoc {L : Type} : List (List Nat) → List (Token L) →
    List (Token L) × List (Nat × Nat)
  | [], acc => (acc, [])
  | seg :: rest, acc =>
    let s := acc.length
    let acc2 := acc ++ (segmentWords seg).map (fun w => Token.Word ⟨w⟩)
    let e := acc2.length
    let r := buildDoc rest acc2
    (r.1, (s, e) :: r.2)

/-- From::from for Document (src/corpus.rs, lines 97-119): split the
buffer on the newline byte and run the construction loop. -/
def documentFrom (L : Type) (bytes : List Nat) : Document L :=
  let r := buildDoc (splitByte 10 bytes) ([] : List (Token L))
  ⟨bytes, r.1, r.2⟩

/-- The lines accessor view: each stored span (s, e) denotes the slice
tokens[s..e] of the word index. -/
def Document.linesView {L : Type} (d : Document L) : List (List (Token L)) :=
  d.lines.map (fun p => (d.tokens.drop p.1).take (p.2 - p.1))

/-- All words of a document, segment by segment: the non-empty
space-delimited substrings of every newline-delimited segment, in order
of appearance. -/
def docWords (segs : List (List Nat)) : List (List Nat) :=
  (segs.map segmentWords).flatten

/-- The number of words contributed by a list of segments. -/
def totalWords (segs : List (List Nat)) : Nat :=
  (segs.map (fun seg => (segmentWords seg).length)).sum

/-- The sentence spans the construction loop records, starting from a
given token count: each segment contributes the half-open range of
word-index positions it fills. -/
def spansFrom (k : Nat) : List (List Nat) → List (Nat × Nat)
  | [] => []
  | seg :: rest =>
    (k, k + (segmentWords seg).length) ::
      spansFrom (k + (segmentWords seg).length) rest

/-- The spans chain from a start index to an end index: the first span
starts at the start index, each span's end is the next span's start, and
the last span's end is the end index. -/
def spansChainTo : Nat → List (Nat × Nat) → Nat → Prop
  | k, [], m => k = m
  | k, p :: rest, m => p.1 = k ∧ spansChainTo p.2 rest m

theorem splitByte_ne_nil (sep : Nat) : ∀ bs : List Nat, splitByte sep bs ≠ []
  | [] => by simp [splitByte]
  | c :: cs => by
    have h := splitByte_ne_nil sep cs
    cases hs : splitByte sep cs with
    | nil => exact absurd hs h
    | cons s ss =>
      by_cases hc : c = sep <;> simp [splitByte, hs, hc]

theorem splitByte_length (sep : Nat) :
    ∀ bs : List Nat, (splitByte sep bs).length = bs.count sep + 1
  | [] => by simp [splitByte]
  | c :: cs => by
    have ih := splitByte_length sep cs
    cases hs : splitByte sep cs with
    | nil => exact absurd hs (splitByte_ne_nil sep cs)
    | cons s ss =>
      rw [hs] at ih
      by_cases hc : c = sep <;>
        simp only [splitByte, hs, hc, if_pos, if_neg, List.count_cons,
          List.length_cons] at ih ⊢ <;>
        simp [hc] <;> omega

theorem splitByte_head_rest (sep : Nat) :
    ∀ bs : List Nat, ∃ s ss rest,
      splitByte sep bs = s :: ss ∧ bs = s ++ rest
  | [] => ⟨[], [], [], rfl, rfl⟩
  | c :: cs => by
    obtain ⟨s, ss, rest, hsplit, hcs⟩ := splitByte_head_rest sep cs
    by_cases hc : c = sep
    · exact ⟨[], s :: ss, c :: cs, by simp [splitByte, hsplit, hc], rfl⟩
    · exact ⟨c :: s, ss, rest, by simp [splitByte, hsplit, hc],
        by simp [hcs]⟩

theorem splitByte_mem_parts (sep : Nat) :
    ∀ (bs : List Nat) (s : List Nat), s ∈ splitByte sep bs →
      ∃ pre post, bs = pre ++ s ++ post
  | [], s => by
    intro hmem
    simp [splitByte] at hmem
    exact ⟨[], [], by simp [hmem]⟩
  | c :: cs, s => by
    intro hmem
    obtain ⟨t, ts, rest, hsplit, hcs⟩ := splitByte_head_rest sep cs
    by_cases hc : c = sep
    · rw [show splitByte sep (c :: cs) = [] :: t :: ts by
        simp [splitByte, hsplit, hc]] at hmem
      rcases List.mem_cons.mp hmem with h0 | hmem'
      · exact ⟨[], c :: cs, by simp [h0]⟩
      · obtain ⟨pre, post, hp⟩ :=
          splitByte_mem_parts sep cs s (hsplit ▸ hmem')
        exact ⟨c :: pre, post, by simp [hp]⟩
    · rw [show splitByte sep (c :: cs) = (c :: t) :: ts by
        simp [splitByte, hsplit, hc]] at hmem
      rcases List.mem_cons.mp hmem with h0 | hmem'
      · exact ⟨[], rest, by simp [h0, hcs]⟩
      · obtain ⟨pre, post, hp⟩ := splitByte_mem_parts sep cs s
          (hsplit ▸ List.mem_cons_of_mem t hmem')
        exact ⟨c :: pre, post, by simp [hp]⟩

theorem splitByte_concat_sep (sep : Nat) :
    ∀ bs : List Nat, splitByte sep (bs ++ [sep]) = splitByte sep bs ++ [[]]
  | [] => by simp [splitByte]
  | c :: cs => by
    have ih := splitByte_concat_sep sep cs
    cases hs : splitByte sep cs with
    | nil => exact absurd hs (splitByte_ne_nil sep cs)
    | cons s ss =>
      rw [hs] at ih
      by_cases hc : c = sep <;>
        simp [splitByte, ih, hs, hc]

theorem buildDoc_fst {L : Type} :
    ∀ (segs : List (List Nat)) (acc : List (Token L)),
      (buildDoc segs acc).1
        = acc ++ (docWords segs).map (fun w => Token.Word ⟨w⟩)
  | [], acc => by simp [buildDoc, docWords]
  | seg :: rest, acc => by
    have ih := buildDoc_fst rest
      (acc ++ (segmentWords seg).map (fun w => Token.Word (⟨w⟩ : Word L)))
    simp [buildDoc, docWords] at ih ⊢
    simp [ih]

theorem buildDoc_snd {L : Type} :
    ∀ (segs : List (List Nat)) (acc : List (Token L)),
      (buildDoc segs acc).2 = spansFrom acc.length segs
  | [], _ => rfl
  | seg :: rest, acc => by
    have ih := buildDoc_snd rest
      (acc ++ (segmentWords seg).map (fun w => Token.Word (⟨w⟩ : Word L)))
    simp [buildDoc, spansFrom, ih]

theorem documentFrom_tokens (L : Type) (B : List Nat) :
    (documentFrom L B).tokens
      = (docWords (splitByte 10 B)).map (fun w => Token.Word ⟨w⟩) := by
  simp [documentFrom, buildDoc_fst]

theorem documentFrom_lines (L : Type) (B : List Nat) :
    (documentFrom L B).lines = spansFrom 0 (splitByte 10 B) := by
  simp [documentFrom, buildDoc_snd (L := L)]

theorem spansFrom_chainTo :
    ∀ (segs : List (List Nat)) (k : Nat),
      spansChainTo k (spansFrom k segs) (k + totalWords segs)
  | [], k => by simp [spansFrom, spansChainTo, totalWords]
  | seg :: rest, k => by
    have ih := spansFrom_chainTo rest (k + (segmentWords seg).length)
    refine ⟨rfl, ?_⟩
    have : k + totalWords (seg :: rest)
        = k + (segmentWords seg).length + totalWords rest := by
      simp [totalWords]; omega
    rw [this]
    exact ih

theorem spansFrom_le :
    ∀ (segs : List (List Nat)) (k : Nat),
      ∀ p ∈ spansFrom k segs, p.1 ≤ p.2
  | [], _ => by simp [spansFrom]
  | seg :: rest, k => by
    intro p hp
    rcases List.mem_cons.mp hp with h | h
    · subst h; simp
    · exact spansFrom_le rest _ p h

theorem spansFrom_length :
    ∀ (segs : List (List Nat)) (k : Nat),
      (spansFrom k segs).length = segs.length
  | [], _ => rfl
  | _ :: rest, k => by
    simp [spansFrom, spansFrom_length rest]

theorem spansFrom_concat (seg : List Nat) :
    ∀ (segs : List (List Nat)) (k : Nat),
      spansFrom k (segs ++ [seg])
        = spansFrom k segs
          ++ [(k + totalWords segs,
               k + totalWords segs + (segmentWords seg).length)]
  | [], k => by simp [spansFrom, totalWords]
  | s :: rest, k => by
    have harith : k + (segmentWords s).length + totalWords rest
        = k + totalWords (s :: rest) := by
      simp [totalWords, Nat.add_assoc]
    have h1 : spansFrom k ((s :: rest) ++ [seg])
        = (k, k + (segmentWords s).length)
            :: spansFrom (k + (segmentWords s).length) (rest ++ [seg]) := rfl
    have h2 : spansFrom k (s :: rest)
        = (k, k + (segmentWords s).length)
            :: spansFrom (k + (segmentWords s).length) rest := rfl
    rw [h1, spansFrom_concat seg rest (k + (segmentWords s).length), harith,
      h2, List.cons_append]

theorem spans_extract {L : Type} (f : List Nat → Token L) :
    ∀ (segs : List (List Nat)) (full : List (Token L)) (k : Nat)
      (tail : List (Token L)),
      full.drop k = (docWords segs).map f ++ tail →
      ((spansFrom k segs).map
          (fun p => (full.drop p.1).take (p.2 - p.1))).flatten
        = (docWords segs).map f
  | [], full, k, tail => by
    intro _
    simp [spansFrom, docWords]
  | seg :: rest, full, k, tail => by
    intro h
    have hdoc : (docWords (seg :: rest)).map f
        = (segmentWords seg).map f ++ (docWords rest).map f := by
      simp [docWords]
    rw [hdoc] at h
    have hn : (k + (segmentWords seg).length) - k
        = ((segmentWords seg).map f).length := by
      simp
    have htake : (full.drop k).take ((k + (segmentWords seg).length) - k)
        = (segmentWords seg).map f := by
      rw [hn, h, List.append_assoc, List.take_left]
    have hdrop : full.drop (k + (segmentWords seg).length)
        = (docWords rest).map f ++ tail := by
      rw [← List.drop_drop, h]
      rw [show (segmentWords seg).length
            = ((segmentWords seg).map f).length by simp,
          List.append_assoc, List.drop_left]
    have ih := spans_extract f rest full
      (k + (segmentWords seg).length) tail hdrop
    simp only [spansFrom, List.map_cons, List.flatten_cons, htake, ih, hdoc]

theorem mem_segmentWords {w seg : List Nat} (h : w ∈ segmentWords seg) :
    w ≠ [] ∧ w ∈ splitByte 32 seg := by
  have h' := List.mem_filter.mp h
  refine ⟨?_, h'.1⟩
  have := h'.2
  simp only [Bool.not_eq_eq_eq_not, Bool.not_false, List.isEmpty_iff] at this
  simp [List.isEmpty_iff] at this ⊢
  exact this

theorem mem_docWords_within {w : List Nat} {B : List Nat}
    (h : w ∈ docWords (splitByte 10 B)) :
    w ≠ [] ∧ ∃ pre post, B = pre ++ w ++ post := by
  simp only [docWords, List.mem_flatten, List.mem_map] at h
  obtain ⟨ws, ⟨seg, hseg, hws⟩, hw⟩ := h
  subst hws
  obtain ⟨hne, hmem⟩ := mem_segmentWords hw
  obtain ⟨p1, p2, hB⟩ := splitByte_mem_parts 10 B seg hseg
  obtain ⟨q1, q2, hseg'⟩ := splitByte_mem_parts 32 seg w hmem
  refine ⟨hne, p1 ++ q1, q2 ++ p2, ?_⟩
  subst hB
  subst hseg'
  simp [List.append_assoc]

theorem padded_length {L : Type} :
    ∀ lines : List (List (Token L)),
      (padded lines).length = 1 + (lines.map List.length).sum + lines.length
  | [] => rfl
  | s :: rest => by
    have ih := padded_length rest
    simp [padded] at ih ⊢
    omega

theorem bigrams_eq_zip {L : Type} :
    ∀ ts : List (Token L), bigrams ts = ts.zip ts.tail
  | [] => rfl
  | [_] => rfl
  | a :: b :: rest => by
    have ih := bigrams_eq_zip (b :: rest)
    simp only [bigrams, ih, List.tail_cons, List.zip_cons_cons]

theorem bigrams_length {L : Type} :
    ∀ ts : List (Token L), (bigrams ts).length = ts.length - 1
  | [] => rfl
  | [_] => rfl
  | a :: b :: rest => by
    have ih := bigrams_length (b :: rest)
    simp only [bigrams, List.length_cons] at ih ⊢
    omega

theorem bigrams_get {L : Type} (ts : List (Token L)) (i : Nat)
    (h : i < (bigrams ts).length) :
    (bigrams ts).get ⟨i, h⟩
      = (ts.get ⟨i, by have hb := bigrams_length ts; omega⟩,
         ts.get ⟨i + 1, by have hb := bigrams_length ts; omega⟩) := by
  have hz := bigrams_eq_zip ts
  simp only [List.get_eq_getElem, hz, List.getElem_zip, List.getElem_tail]

theorem unk_length {L : Type} [DecidableEq (Token L)]
    (ts V : List (Token L)) : (unk ts V).length = ts.length := by
  simp [unk]

theorem bytesLt_trichotomy :
    ∀ l1 l2 : List Nat,
      l1 = l2 ∨ bytesLt l1 l2 = true ∨ bytesLt l2 l1 = true
  | [], [] => Or.inl rfl
  | [], _ :: _ => Or.inr (Or.inl rfl)
  | _ :: _, [] => Or.inr (Or.inr rfl)
  | a :: l1, b :: l2 => by
    rcases Nat.lt_trichotomy a b with hab | hab | hab
    · refine Or.inr (Or.inl ?_)
      simp [bytesLt, hab]
    · subst hab
      rcases bytesLt_trichotomy l1 l2 with h | h | h
      · exact Or.inl (by rw [h])
      · exact Or.inr (Or.inl (by simp [bytesLt, h]))
      · exact Or.inr (Or.inr (by simp [bytesLt, h]))
    · refine Or.inr (Or.inr ?_)
      simp [bytesLt, hab]

theorem bytesLt_asymm :
    ∀ l1 l2 : List Nat, bytesLt l1 l2 = true → bytesLt l2 l1 = false
  | [], [] => by simp [bytesLt]
  | [], _ :: _ => by simp [bytesLt]
  | _ :: _, [] => by simp [bytesLt]
  | a :: l1, b :: l2 => by
    intro h
    rcases Nat.lt_trichotomy a b with hab | hab | hab
    · simp [bytesLt, hab, Nat.lt_asymm hab, Nat.ne_of_gt hab]
    · subst hab
      simp only [bytesLt, lt_irrefl, if_neg, ite_false] at h ⊢
      simp at h ⊢
      exact bytesLt_asymm l1 l2 h
    · exfalso
      simp [bytesLt, hab, Nat.lt_asymm hab] at h
      omega

theorem Word.ext_chars {L : Type} {a b : Word L} (h : a.chars = b.chars) :
    a = b := by
  cases a
  cases b
  simpa using h

theorem Token.lt_trichotomy {L : Type} :
    ∀ t u : Token L, t = u ∨ Token.lt t u = true ∨ Token.lt u t = true
  | .Null, .Null => Or.inl rfl
  | .Null, .Unknown => Or.inr (Or.inl rfl)
  | .Null, .Word _ => Or.inr (Or.inr rfl)
  | .Unknown, .Null => Or.inr (Or.inr rfl)
  | .Unknown, .Unknown => Or.inl rfl
  | .Unknown, .Word _ => Or.inr (Or.inr rfl)
  | .Word _, .Null => Or.inr (Or.inl rfl)
  | .Word _, .Unknown => Or.inr (Or.inl rfl)
  | .Word a, .Word b => by
    rcases bytesLt_trichotomy a.chars b.chars with h | h | h
    · exact Or.inl (by rw [Word.ext_chars h])
    · exact Or.inr (Or.inl h)
    · exact Or.inr (Or.inr h)

theorem Token.lt_asymm {L : Type} :
    ∀ t u : Token L, Token.lt t u = true → Token.lt u t = false
  | .Null, .Null => by simp [Token.lt]
  | .Null, .Unknown => by simp [Token.lt]
  | .Null, .Word _ => by simp [Token.lt]
  | .Unknown, .Null => by simp [Token.lt]
  | .Unknown, .Unknown => by simp [Token.lt]
  | .Unknown, .Word _ => by simp [Token.lt]
  | .Word _, .Null => by simp [Token.lt]
  | .Word _, .Unknown => by simp [Token.lt]
  | .Word a, .Word b => bytesLt_asymm a.chars b.chars

theorem docWords_map_length {L : Type} (f : List Nat → Token L) :
    ∀ segs : List (List Nat),
      ((docWords segs).map f).length = totalWords segs
  | [] => rfl
  | s :: rest => by
    have ih := docWords_map_length f rest
    simp [docWords, totalWords] at ih ⊢
    omega

/-- C1: for every byte buffer, the sentence spans produced by corpus
construction partition the word index exactly: concatenating the line
views in order reproduces the token list; the first span starts at 0,
each span's end equals the next span's start, the last span's end equals
the word-index length, and every span is non-decreasing (no gaps, no
overlaps). -/
theorem C1_sentences_partition_words (L : Type) (B : List Nat) :
    (documentFrom L B).linesView.flatten = (documentFrom L B).tokens
    ∧ spansChainTo 0 (documentFrom L B).lines
        (documentFrom L B).tokens.length
    ∧ ∀ p ∈ (documentFrom L B).lines, p.1 ≤ p.2 := by
  refine ⟨?_, ?_, ?_⟩
  · show ((documentFrom L B).lines.map
        (fun p => ((documentFrom L B).tokens.drop p.1).take (p.2 - p.1))).flatten
      = (documentFrom L B).tokens
    rw [documentFrom_lines, documentFrom_tokens]
    exact spans_extract (fun w => Token.Word ⟨w⟩) (splitByte 10 B)
      ((docWords (splitByte 10 B)).map (fun w => Token.Word ⟨w⟩)) 0 []
      (by simp)
  · rw [documentFrom_lines, documentFrom_tokens]
    have h := spansFrom_chainTo (splitByte 10 B) 0
    rw [Nat.zero_add] at h
    have hlen : ((docWords (splitByte 10 B)).map
          (fun w => Token.Word (⟨w⟩ : Word L))).length
        = totalWords (splitByte 10 B) := docWords_map_length _ _
    rw [hlen]
    exact h
  · rw [documentFrom_lines]
    exact spansFrom_le (splitByte 10 B) 0

/-- C1 witness: the span ordering property applied to the concrete
two-line buffer holding bytes 97, newline, 98, whose first sentence span
is (0, 1). -/
theorem C1_sentences_partition_words_witness :
    ((0, 1) : Nat × Nat).1 ≤ ((0, 1) : Nat × Nat).2 :=
  (C1_sentences_partition_words Unit [97, 10, 98]).2.2 (0, 1) (by decide)

/-- C2: for every byte buffer, the token list of the constructed corpus
is exactly the list of non-empty space-delimited substrings of the
newline-delimited segments, in order of appearance, each wrapped as a
Word token; its length is the number of such substrings; and every token
is a Word whose byte content is non-empty and occurs contiguously within
the buffer. -/
theorem C2_words_are_substrings (L : Type) (B : List Nat) :
    (documentFrom L B).tokens
      = (docWords (splitByte 10 B)).map (fun w => Token.Word ⟨w⟩)
    ∧ (documentFrom L B).tokens.length = totalWords (splitByte 10 B)
    ∧ ∀ t ∈ (documentFrom L B).tokens, ∃ w : List Nat,
        t = Token.Word ⟨w⟩ ∧ w ≠ [] ∧ ∃ pre post, B = pre ++ w ++ post := by
  refine ⟨documentFrom_tokens L B, ?_, ?_⟩
  · rw [documentFrom_tokens]
    exact docWords_map_length _ (splitByte 10 B)
  · intro t ht
    rw [documentFrom_tokens] at ht
    obtain ⟨w, hw, hwt⟩ := List.mem_map.mp ht
    obtain ⟨hne, pre, post, hB⟩ := mem_docWords_within hw
    exact ⟨w, hwt.symm, hne, pre, post, hB⟩

/-- C2 witness: the token holding byte 97 in the corpus built from the
buffer 97, newline, 98 is a non-empty Word occurring within the buffer. -/
theorem C2_words_are_substrings_witness :
    ∃ w : List Nat, (Token.Word ⟨[97]⟩ : Token Unit) = Token.Word ⟨w⟩
      ∧ w ≠ [] ∧ ∃ pre post, [97, 10, 98] = pre ++ w ++ post :=
  (C2_words_are_substrings Unit [97, 10, 98]).2.2 (Token.Word ⟨[97]⟩)
    (by decide)

/-- C3: padded produces one Null token, then for each sentence in order
that sentence's tokens followed by one Null token; its total length
equals 1 plus the sum of the sentence lengths plus the number of
sentences. -/
theorem C3_padded_shape_and_length (L : Type)
    (lines : List (List (Token L))) :
    padded lines
      = Token.Null :: (lines.map (fun s => s ++ [Token.Null])).flatten
    ∧ (padded lines).length
        = 1 + (lines.map List.length).sum + lines.length :=
  ⟨rfl, padded_length lines⟩

/-- C4: bigrams of a token sequence has length max(0, n - 1) (truncated
subtraction on Nat), its i-th element is the pair of the i-th and
(i+1)-th input tokens, and the second component of pair i equals the
first component of pair i+1. -/
theorem C4_bigrams_window (L : Type) (ts : List (Token L)) :
    (bigrams ts).length = ts.length - 1
    ∧ (∀ (i : Nat) (h : i < (bigrams ts).length),
        (bigrams ts).get ⟨i, h⟩
          = (ts.get ⟨i, by have hb := bigrams_length ts; omega⟩,
             ts.get ⟨i + 1, by have hb := bigrams_length ts; omega⟩))
    ∧ ∀ (i : Nat) (h : i + 1 < (bigrams ts).length),
        ((bigrams ts).get ⟨i, by omega⟩).2
          = ((bigrams ts).get ⟨i + 1, h⟩).1 := by
  refine ⟨bigrams_length ts, fun i h => bigrams_get ts i h, ?_⟩
  intro i h
  rw [bigrams_get ts i (by omega), bigrams_get ts (i + 1) h]

/-- C4 witness: the adjacency property of bigrams evaluated on the
concrete three-token sequence Null, Unknown, Null. -/
theorem C4_bigrams_window_witness :
    ((bigrams (L := Unit)
        [Token.Null, Token.Unknown, Token.Null]).get ⟨0, by decide⟩).2
      = ((bigrams (L := Unit)
        [Token.Null, Token.Unknown, Token.Null]).get ⟨1, by decide⟩).1 :=
  (C4_bigrams_window Unit [Token.Null, Token.Unknown, Token.Null]).2.2 0
    (by decide)

/-- C5: unk preserves length and order; element i of the output is the
corresponding input token when that token is a member of the vocabulary
under structural equality, and Unknown otherwise, with no variant
exempted from the membership check; hence every output token is Unknown
or a vocabulary member. -/
theorem C5_unk_membership (L : Type) [DecidableEq (Token L)]
    (ts V : List (Token L)) :
    (unk ts V).length = ts.length
    ∧ (∀ (i : Nat) (h : i < ts.length),
        (unk ts V).get ⟨i, by rw [unk_length]; exact h⟩
          = if ts.get ⟨i, h⟩ ∈ V then ts.get ⟨i, h⟩ else Token.Unknown)
    ∧ ∀ t ∈ unk ts V, t = Token.Unknown ∨ t ∈ V := by
  refine ⟨unk_length ts V, ?_, ?_⟩
  · intro i h
    simp [unk]
  · intro t ht
    simp only [unk, List.mem_map] at ht
    obtain ⟨x, hx, hxt⟩ := ht
    by_cases hv : x ∈ V
    · right
      rw [← hxt]
      simp [hv]
    · left
      rw [← hxt]
      simp [hv]

/-- C5 witness: unk evaluated on the sequence holding one Null token and
the empty vocabulary replaces the Null token, since Null is not a member
of the empty vocabulary. -/
theorem C5_unk_membership_witness :
    (unk (L := Unit) [Token.Null] []).get ⟨0, by decide⟩
      = if (Token.Null : Token Unit) ∈ ([] : List (Token Unit))
        then (Token.Null : Token Unit) else Token.Unknown :=
  (C5_unk_membership Unit [Token.Null] []).2.1 0 (by decide)

/-- C6: when the vocabulary contains every token occurring in the input,
unk is the identity. -/
theorem C6_unk_identity (L : Type) [DecidableEq (Token L)]
    (ts V : List (Token L)) (h : ∀ t ∈ ts, t ∈ V) :
    unk ts V = ts := by
  revert h
  induction ts with
  | nil => intro _; rfl
  | cons a rest ih =>
    intro h
    have ha : a ∈ V := h a (by simp)
    have hr := ih (fun t ht => h t (by simp [ht]))
    simp only [unk, List.map_cons] at hr ⊢
    rw [if_pos ha, hr]

/-- C6 witness: unk on a one-token sequence with a vocabulary holding
that token returns the sequence unchanged. -/
theorem C6_unk_identity_witness :
    unk (L := Unit) [Token.Null] [Token.Null] = [Token.Null] :=
  C6_unk_identity Unit [Token.Null] [Token.Null] (by decide)

/-- C7: the corpus built from the empty byte buffer has an empty token
list and exactly one sentence span, of length zero. -/
theorem C7_empty_buffer (L : Type) :
    (documentFrom L []).tokens = [] ∧ (documentFrom L []).lines = [(0, 0)] :=
  ⟨rfl, rfl⟩

/-- C8: loan preserves a token's variant and byte content exactly, and
never alters equality or ordering: loaned tokens are equal exactly when
the originals are, and compare exactly as the originals do. -/
theorem C8_loan_preserves (L M : Type) (t u : Token L) :
    (@Token.loan L M t).content = t.content
    ∧ (@Token.loan L M t).variant = t.variant
    ∧ (@Token.loan L M t = @Token.loan L M u ↔ t = u)
    ∧ Token.lt (@Token.loan L M t) (@Token.loan L M u) = Token.lt t u := by
  refine ⟨by cases t <;> rfl, by cases t <;> rfl, ?_,
    by cases t <;> cases u <;> rfl⟩
  cases t with
  | Word a =>
    cases u with
    | Word b =>
      cases a
      cases b
      simp [Token.loan]
    | Null => simp [Token.loan]
    | Unknown => simp [Token.loan]
  | Null => cases u <;> simp [Token.loan]
  | Unknown => cases u <;> simp [Token.loan]

/-- C9 counterexample: the claimed cross-variant order Null less than
Unknown less than Word fails on the code: the derived order puts Word
tokens below Null, as evaluated on the word holding the single byte 97. -/
theorem C9_claimed_order_fails :
    Token.lt (Token.Null : Token Unit) (Token.Word ⟨[97]⟩) = false
    ∧ Token.lt (Token.Word (⟨[97]⟩ : Word Unit)) Token.Null = true
    ∧ Token.lt (Token.Unknown : Token Unit) (Token.Word ⟨[97]⟩) = false := by
  decide

/-- C9 amended: token equality and ordering are structural and total,
with the cross-variant order Word then Null then Unknown (the
declaration order of the enum variants); Word tokens are equal, and
compare, according to their underlying byte content, not their position
in the buffer. -/
theorem C9_structural_total_order (L : Type) (a b : List Nat)
    (t u : Token L) :
    (Token.Word (⟨a⟩ : Word L) = Token.Word ⟨b⟩ ↔ a = b)
    ∧ Token.lt (Token.Word (⟨a⟩ : Word L)) (Token.Word ⟨b⟩) = bytesLt a b
    ∧ Token.lt (Token.Word (⟨a⟩ : Word L)) Token.Null = true
    ∧ Token.lt (Token.Null : Token L) Token.Unknown = true
    ∧ Token.lt (Token.Word (⟨a⟩ : Word L)) Token.Unknown = true
    ∧ (t = u ∨ Token.lt t u = true ∨ Token.lt u t = true)
    ∧ (Token.lt t u = true → Token.lt u t = false) :=
  ⟨by simp, rfl, rfl, rfl, rfl, Token.lt_trichotomy t u, Token.lt_asymm t u⟩

/-- C9 witness: asymmetry of the token order applied at the word holding
byte 97 and the Null token. -/
theorem C9_structural_total_order_witness :
    Token.lt (Token.Null : Token Unit) (Token.Word ⟨[97]⟩) = false :=
  (C9_structural_total_order Unit [] []
      (Token.Word ⟨[97]⟩) Token.Null).2.2.2.2.2.2 (by decide)

/-- C10: for every byte buffer, the number of sentence spans equals the
number of newline bytes plus one; and a buffer ending in a newline byte
yields a final sentence span of length zero. -/
theorem C10_sentence_count (L : Type) (B : List Nat) :
    (documentFrom L B).lines.length = B.count 10 + 1
    ∧ ∃ k, (documentFrom L (B ++ [10])).lines.getLast? = some (k, k) := by
  constructor
  · rw [documentFrom_lines, spansFrom_length, splitByte_length]
  · rw [documentFrom_lines, splitByte_concat_sep, spansFrom_concat,
      List.getLast?_concat]
    exact ⟨totalWords (splitByte 10 B),
      by simp [show segmentWords ([] : List Nat) = [] from rfl]⟩

end Nlptk
